import Mathlib

/-!
Verification of the pulse-processor simulator specification against the
repository sources.  The quantum-gate constructors are embedded directly from
`src/qutip/gates.py`; the pulse/processor layer, whose implementation is not
part of the source tree (only its test suite is), is modelled from the
specification, as indicated on each definition.
-/

namespace QutipSpec

open Matrix Complex

/-! ## Basis kets and the gate constructors (`src/qutip/gates.py`)

`gates.py` builds each gate as a sum of outer products `|x⟩⟨y|` of spin basis
states produced by `qstate`.  `qstate` maps a string over `{u, d}` to the
tensor-product basis ket with `u ↦ basis(2,1)` and `d ↦ basis(2,0)`; we encode
an `n`-qubit basis label as an element of the `n`-fold product of `Fin 2`
(`u = 1`, `d = 0`) and a ket as a column vector over that index type. -/

/-- The basis ket `|i⟩` as a column vector, the embedding of `qstate`'s output
for the basis label `i`. -/
def ket {ι : Type} [DecidableEq ι] (i : ι) : Matrix ι (Fin 1) ℂ :=
  fun j _ => if j = i then 1 else 0

/-- Adjoint (`dag` in the source): conjugate transpose. -/
def dag {ι κ : Type} (A : Matrix ι κ ℂ) : Matrix κ ι ℂ := A.conjTranspose

/-- One-, two- and three-qubit basis label spaces. -/
abbrev Q1 := Fin 2
abbrev Q2 := Fin 2 × Fin 2
abbrev Q3 := Fin 2 × Fin 2 × Fin 2

/-- `qstate('u')`: the spin-up single-qubit ket. -/
def u : Matrix Q1 (Fin 1) ℂ := ket 1

/-- `qstate('d')`: the spin-down single-qubit ket. -/
def d : Matrix Q1 (Fin 1) ℂ := ket 0

/-- `qstate('uu')`. -/
def uu : Matrix Q2 (Fin 1) ℂ := ket (1, 1)

/-- `qstate('ud')`. -/
def ud : Matrix Q2 (Fin 1) ℂ := ket (1, 0)

/-- `qstate('du')`. -/
def du : Matrix Q2 (Fin 1) ℂ := ket (0, 1)

/-- `qstate('dd')`. -/
def dd : Matrix Q2 (Fin 1) ℂ := ket (0, 0)

/-- `qstate('uuu')`. -/
def uuu : Matrix Q3 (Fin 1) ℂ := ket (1, 1, 1)

/-- `qstate('uud')`. -/
def uud : Matrix Q3 (Fin 1) ℂ := ket (1, 1, 0)

/-- `qstate('udu')`. -/
def udu : Matrix Q3 (Fin 1) ℂ := ket (1, 0, 1)

/-- `qstate('udd')`. -/
def udd : Matrix Q3 (Fin 1) ℂ := ket (1, 0, 0)

/-- `qstate('duu')`. -/
def duu : Matrix Q3 (Fin 1) ℂ := ket (0, 1, 1)

/-- `qstate('dud')`. -/
def dud : Matrix Q3 (Fin 1) ℂ := ket (0, 1, 0)

/-- `qstate('ddu')`. -/
def ddu : Matrix Q3 (Fin 1) ℂ := ket (0, 0, 1)

/-- `qstate('ddd')`. -/
def ddd : Matrix Q3 (Fin 1) ℂ := ket (0, 0, 0)

/-- `cnot()` from `gates.py`:
`Q = dd*dag(dd) + du*dag(du) + uu*dag(ud) + ud*dag(uu)`. -/
noncomputable def cnot : Matrix Q2 Q2 ℂ :=
  dd * dag dd + du * dag du + uu * dag ud + ud * dag uu

/-- `snot()` from `gates.py`:
`Q = ((u+d)*dag(d) + (d-u)*dag(u)) / sqrt(2)`. -/
noncomputable def snot : Matrix Q1 Q1 ℂ :=
  (Real.sqrt 2 : ℂ)⁻¹ • ((u + d) * dag d + (d - u) * dag u)

/-- `fredkin()` from `gates.py`:
`Q = ddd*dag(ddd) + ddu*dag(ddu) + dud*dag(dud) + duu*dag(duu) + udd*dag(udd)
   + uud*dag(udu) + udu*dag(uud) + uuu*dag(uuu)`. -/
noncomputable def fredkin : Matrix Q3 Q3 ℂ :=
  ddd * dag ddd + ddu * dag ddu + dud * dag dud + duu * dag duu +
    udd * dag udd + uud * dag udu + udu * dag uud + uuu * dag uuu

/-- `toffoli()` from `gates.py`:
`Q = ddd*dag(ddd) + ddu*dag(ddu) + dud*dag(dud) + duu*dag(duu) + udd*dag(udd)
   + udu*dag(udu) + uuu*dag(uud) + uud*dag(uuu)`. -/
noncomputable def toffoli : Matrix Q3 Q3 ℂ :=
  ddd * dag ddd + ddu * dag ddu + dud * dag dud + duu * dag duu +
    udd * dag udd + udu * dag udu + uuu * dag uud + uud * dag uuu

section KetLemmas

variable {ι : Type} [Fintype ι] [DecidableEq ι]

lemma bra_mul_ket (b c : ι) :
    dag (ket b) * ket c = if b = c then (1 : Matrix (Fin 1) (Fin 1) ℂ) else 0 := by
  ext i j
  have hij : i = j := Subsingleton.elim i j
  subst hij
  simp only [ket, dag, Matrix.mul_apply, Matrix.conjTranspose_apply,
    apply_ite (star : ℂ → ℂ), star_one, star_zero, ite_mul, one_mul, zero_mul]
  by_cases hbc : b = c
  · subst hbc
    simp [Finset.sum_ite_eq', Matrix.one_apply]
  · simp [Finset.sum_ite_eq', hbc]

lemma ketbra_mul_ket (a b c : ι) :
    (ket a * dag (ket b)) * ket c = if b = c then ket a else (0 : Matrix ι (Fin 1) ℂ) := by
  rw [Matrix.mul_assoc, bra_mul_ket]
  by_cases hbc : b = c <;> simp [hbc]

lemma ketbra_mul_ketbra (a b c e : ι) :
    (ket a * dag (ket b)) * (ket c * dag (ket e)) =
      if b = c then ket a * dag (ket e) else (0 : Matrix ι ι ℂ) := by
  rw [Matrix.mul_assoc, ← Matrix.mul_assoc (dag (ket b)), bra_mul_ket]
  by_cases hbc : b = c <;> simp [hbc, Matrix.mul_assoc]

lemma sum_ketbra : (∑ x : ι, ket x * dag (ket x)) = (1 : Matrix ι ι ℂ) := by
  ext i j
  simp only [Finset.sum_apply, Matrix.sum_apply, ket, dag, Matrix.mul_apply,
    Matrix.conjTranspose_apply, Fin.sum_univ_one, Matrix.one_apply]
  simp [Finset.sum_ite_eq, eq_comm, ite_and, apply_ite]

end KetLemmas

lemma ketbra_complete_Q1 : u * dag u + d * dag d = (1 : Matrix Q1 Q1 ℂ) := by
  rw [← sum_ketbra (ι := Q1)]
  simp only [u, d, Fin.sum_univ_two]
  abel

lemma ketbra_complete_Q2 :
    dd * dag dd + du * dag du + ud * dag ud + uu * dag uu = (1 : Matrix Q2 Q2 ℂ) := by
  rw [← sum_ketbra (ι := Q2)]
  simp only [dd, du, ud, uu, Fintype.sum_prod_type, Fin.sum_univ_two]
  abel

lemma ketbra_complete_Q3 :
    ddd * dag ddd + ddu * dag ddu + dud * dag dud + duu * dag duu +
      udd * dag udd + udu * dag udu + uud * dag uud + uuu * dag uuu =
      (1 : Matrix Q3 Q3 ℂ) := by
  rw [← sum_ketbra (ι := Q3)]
  simp only [ddd, ddu, dud, duu, udd, udu, uud, uuu, Fintype.sum_prod_type, Fin.sum_univ_two]
  abel

/-- C1: `toffoli()` returns the permutation operator that exchanges the basis
states `|uuu⟩` and `|uud⟩` while leaving the other six three-qubit basis
states (`|udu⟩`, `|udd⟩`, `|duu⟩`, `|dud⟩`, `|ddu⟩`, `|ddd⟩`) fixed, exactly
as the reference truth table in the specification describes. -/
theorem toffoli_truth_table :
    toffoli * uuu = uud ∧ toffoli * uud = uuu ∧
      toffoli * udu = udu ∧ toffoli * udd = udd ∧
      toffoli * duu = duu ∧ toffoli * dud = dud ∧
      toffoli * ddu = ddu ∧ toffoli * ddd = ddd := by
  refine ⟨?_, ?_, ?_, ?_, ?_, ?_, ?_, ?_⟩ <;>
  · simp only [toffoli, uuu, uud, udu, udd, duu, dud, ddu, ddd, Matrix.add_mul, ketbra_mul_ket]
    simp [Prod.ext_iff]

set_option maxHeartbeats 1000000 in
/-- C10: each of the gate constructors `cnot()`, `snot()`, `fredkin()` and
`toffoli()` returns an operator that is its own inverse: composing the gate
with itself yields the identity on its space. -/
theorem gates_self_inverse :
    cnot * cnot = 1 ∧ snot * snot = 1 ∧ fredkin * fredkin = 1 ∧ toffoli * toffoli = 1 := by
  refine ⟨?_, ?_, ?_, ?_⟩
  · rw [← ketbra_complete_Q2]
    simp only [cnot, dd, du, ud, uu, Matrix.add_mul, Matrix.mul_add, ketbra_mul_ketbra]
    simp [Prod.ext_iff]
  · have hs : ((Real.sqrt 2 : ℂ)⁻¹ * (Real.sqrt 2 : ℂ)⁻¹) * 2 = 1 := by
      rw [← mul_inv]
      norm_cast
      rw [Real.mul_self_sqrt (by norm_num)]
      norm_num
    have hA : ((u + d) * dag d + (d - u) * dag u) *
        ((u + d) * dag d + (d - u) * dag u) = (2 : ℂ) • (1 : Matrix Q1 Q1 ℂ) := by
      rw [two_smul, ← ketbra_complete_Q1]
      simp only [u, d, Matrix.add_mul, Matrix.sub_mul, Matrix.mul_add, Matrix.mul_sub,
        ketbra_mul_ketbra]
      simp [Prod.ext_iff]
      abel
    rw [snot, Matrix.smul_mul, Matrix.mul_smul, hA, smul_smul, smul_smul, hs, one_smul]
  · rw [← ketbra_complete_Q3]
    simp only [fredkin, ddd, ddu, dud, duu, udd, udu, uud, uuu, Matrix.add_mul, Matrix.mul_add,
      ketbra_mul_ketbra]
    simp [Prod.ext_iff]
  · rw [← ketbra_complete_Q3]
    simp only [toffoli, ddd, ddu, dud, duu, udd, udu, uud, uuu, Matrix.add_mul, Matrix.mul_add,
      ketbra_mul_ketbra]
    simp [Prod.ext_iff]

/-! ## Pulse validation and the pulse-table text format

The `Pulse`/`Processor` implementation is not part of the source tree — only
`src/qutip/tests/test_processor.py` is — so the definitions below are modelled
from the specification, with the test file pinning concrete behaviour where
the two disagree. -/

/-- The closed enumeration of interpolation conventions (spec section 3 and
design notes): held-constant `STEP` versus smooth `CUBIC`. -/
inductive SplineKind
  | step
  | cubic
deriving DecidableEq

/-- The pulse-specification error taxonomy entry relevant here
(spec section 7). -/
inductive PulseError
  | invalidPulseSpec
deriving DecidableEq

/-- Modelled from the spec: the length compatibility of a coefficient sequence
with a time grid (spec sections 3 and 4.2).  For CUBIC interpolation the
coefficients are aligned one-to-one with the grid.  For STEP interpolation the
spec's data model allows the sequence to be aligned "or one shorter", and
`testSpline` in `src/qutip/tests/test_processor.py` builds a STEP pulse whose
`coeff` has exactly the length of its `tlist` and assembles it successfully,
so both lengths are accepted. -/
def lengthOk (kind : SplineKind) (tlist coeff : List ℚ) : Bool :=
  match kind with
  | .cubic => coeff.length == tlist.length
  | .step => coeff.length == tlist.length || coeff.length == tlist.length - 1

/-- Executable strict-increase check on a time grid (spec 4.2: "tlist must be
strictly increasing"). -/
def strictlyIncreasingB : List ℚ → Bool
  | [] => true
  | [_] => true
  | x :: y :: rest => decide (x < y) && strictlyIncreasingB (y :: rest)

lemma strictlyIncreasingB_iff (l : List ℚ) :
    strictlyIncreasingB l = true ↔ List.Chain' (· < ·) l := by
  induction l with
  | nil => simp [strictlyIncreasingB]
  | cons x xs ih =>
    cases xs with
    | nil => simp [strictlyIncreasingB]
    | cons y ys =>
      rw [strictlyIncreasingB, List.chain'_cons, Bool.and_eq_true, decide_eq_true_iff, ih]

/-- Modelled from the spec: pulse validation (spec 4.2): the coefficient
sequence must fit the grid per `lengthOk` and the grid must be strictly
increasing; violations fail with `InvalidPulseSpec`. -/
def validate (kind : SplineKind) (tlist coeff : List ℚ) : Except PulseError Unit :=
  if lengthOk kind tlist coeff && strictlyIncreasingB tlist then Except.ok ()
  else Except.error PulseError.invalidPulseSpec

/-- Modelled from the spec: a pulse's numeric payload, the `(tlist, coeff)`
pair of the spec's data model (section 3), with rationals standing for the
floating-point table entries. -/
structure CoeffPulse where
  tlist : List ℚ
  coeff : List ℚ
deriving DecidableEq

/-- Modelled from the spec: merge of two strictly increasing time grids into
their sorted union (spec 4.4 step 3). -/
def mergeGrids : List ℚ → List ℚ → List ℚ
  | [], ys => ys
  | x :: xs, [] => x :: xs
  | x :: xs, y :: ys =>
    if x < y then x :: mergeGrids xs (y :: ys)
    else if y < x then y :: mergeGrids (x :: xs) ys
    else x :: mergeGrids xs ys
termination_by xs ys => xs.length + ys.length

/-- Modelled from the spec: the merged time grid of all pulses
(`get_full_tlist`). -/
def get_full_tlist (ps : List CoeffPulse) : List ℚ :=
  ps.foldr (fun p acc => mergeGrids p.tlist acc) []

/-- Modelled from the spec: `save_coeff` writes the numeric pulse table whose
first row is the merged time grid and whose remaining rows are each pulse's
coefficient sequence aligned to that grid; with `inctime = false` the
coefficients alone are written (spec section 6). -/
def save_coeff (ps : List CoeffPulse) (inctime : Bool) : List (List ℚ) :=
  if inctime then get_full_tlist ps :: ps.map (·.coeff) else ps.map (·.coeff)

/-- Modelled from the spec: `read_coeff` reads the table back; with
`inctime = true` the first row is taken as every pulse's time grid, otherwise
the grids are left empty for the caller to supply via `set_all_tlist`
(spec section 6). -/
def read_coeff (table : List (List ℚ)) (inctime : Bool) : List CoeffPulse :=
  if inctime then
    match table with
    | [] => []
    | t :: rows => rows.map fun c => ⟨t, c⟩
  else table.map fun c => ⟨[], c⟩

/-- Modelled from the spec: `set_all_tlist` assigns one time grid to every
pulse (spec section 6). -/
def set_all_tlist (ps : List CoeffPulse) (t : List ℚ) : List CoeffPulse :=
  ps.map fun p => ⟨t, p.coeff⟩

lemma mergeGrids_nil_left (ys : List ℚ) : mergeGrids [] ys = ys := by
  rw [mergeGrids]

lemma mergeGrids_nil_right (xs : List ℚ) : mergeGrids xs [] = xs := by
  cases xs <;> rw [mergeGrids]

lemma mergeGrids_cons_cons (x y : ℚ) (xs ys : List ℚ) :
    mergeGrids (x :: xs) (y :: ys) =
      if x < y then x :: mergeGrids xs (y :: ys)
      else if y < x then y :: mergeGrids (x :: xs) ys
      else x :: mergeGrids xs ys := by
  rw [mergeGrids]

lemma mergeGrids_self {T : List ℚ} (hT : List.Chain' (· < ·) T) : mergeGrids T T = T := by
  induction T with
  | nil => exact mergeGrids_nil_left []
  | cons x xs ih =>
    rw [mergeGrids_cons_cons, if_neg (lt_irrefl x), if_neg (lt_irrefl x)]
    exact congrArg (x :: ·) (ih hT.tail)

lemma get_full_tlist_const {T : List ℚ} (hT : List.Chain' (· < ·) T)
    {ps : List CoeffPulse} (hall : ∀ p ∈ ps, p.tlist = T) (hne : ps ≠ []) :
    get_full_tlist ps = T := by
  induction ps with
  | nil => exact absurd rfl hne
  | cons p ps ih =>
    have hp : p.tlist = T := hall p (List.mem_cons_self p ps)
    cases ps with
    | nil =>
      show mergeGrids p.tlist [] = T
      rw [mergeGrids_nil_right, hp]
    | cons q qs =>
      have hrest : get_full_tlist (q :: qs) = T :=
        ih (fun r hr => hall r (List.mem_cons_of_mem p hr)) (by simp)
      show mergeGrids p.tlist (get_full_tlist (q :: qs)) = T
      rw [hp, hrest, mergeGrids_self hT]

/-- C2: writing the pulse table with `save_coeff` and reading it back with
`read_coeff` reproduces the identical `(tlist, coeff)` pair of every pulse,
both when the time grid is included as the first row and when coefficients
alone are written and the grid is supplied afterwards via `set_all_tlist`. -/
theorem save_read_roundtrip (T : List ℚ) (ps : List CoeffPulse)
    (hT : strictlyIncreasingB T = true) (hall : ∀ p ∈ ps, p.tlist = T) (hne : ps ≠ []) :
    read_coeff (save_coeff ps true) true = ps ∧
      set_all_tlist (read_coeff (save_coeff ps false) false) T = ps := by
  have hT' : List.Chain' (· < ·) T := (strictlyIncreasingB_iff T).mp hT
  constructor
  · show read_coeff (get_full_tlist ps :: ps.map (·.coeff)) true = ps
    rw [get_full_tlist_const hT' hall hne]
    show (ps.map (·.coeff)).map (fun c => CoeffPulse.mk T c) = ps
    rw [List.map_map]
    conv_rhs => rw [← List.map_id ps]
    refine List.map_congr_left fun p hp => ?_
    rw [← hall p hp]
    rfl
  · show set_all_tlist ((ps.map (·.coeff)).map fun c => CoeffPulse.mk [] c) T = ps
    rw [set_all_tlist, List.map_map, List.map_map]
    conv_rhs => rw [← List.map_id ps]
    refine List.map_congr_left fun p hp => ?_
    rw [← hall p hp]
    rfl

/-- Witness for C2 at the concrete pulse table of `test_save_read`: two pulses
sharing the grid `[0,1,2,3,4,5]` with coefficient rows `[0,1,2,3,4]` and
`[5,4,3,2,1]`. -/
theorem save_read_roundtrip_witness :
    (strictlyIncreasingB [0, 1, 2, 3, 4, 5] = true ∧
        (∀ p ∈ [CoeffPulse.mk [0, 1, 2, 3, 4, 5] [0, 1, 2, 3, 4],
            CoeffPulse.mk [0, 1, 2, 3, 4, 5] [5, 4, 3, 2, 1]],
          p.tlist = ([0, 1, 2, 3, 4, 5] : List ℚ)) ∧
        [CoeffPulse.mk [0, 1, 2, 3, 4, 5] [0, 1, 2, 3, 4],
          CoeffPulse.mk [0, 1, 2, 3, 4, 5] [5, 4, 3, 2, 1]] ≠ []) ∧
      (read_coeff
            (save_coeff
              [CoeffPulse.mk [0, 1, 2, 3, 4, 5] [0, 1, 2, 3, 4],
                CoeffPulse.mk [0, 1, 2, 3, 4, 5] [5, 4, 3, 2, 1]] true) true =
          [CoeffPulse.mk [0, 1, 2, 3, 4, 5] [0, 1, 2, 3, 4],
            CoeffPulse.mk [0, 1, 2, 3, 4, 5] [5, 4, 3, 2, 1]] ∧
        set_all_tlist
            (read_coeff
              (save_coeff
                [CoeffPulse.mk [0, 1, 2, 3, 4, 5] [0, 1, 2, 3, 4],
                  CoeffPulse.mk [0, 1, 2, 3, 4, 5] [5, 4, 3, 2, 1]] false) false)
            [0, 1, 2, 3, 4, 5] =
          [CoeffPulse.mk [0, 1, 2, 3, 4, 5] [0, 1, 2, 3, 4],
            CoeffPulse.mk [0, 1, 2, 3, 4, 5] [5, 4, 3, 2, 1]]) :=
  ⟨⟨by decide, by decide, by decide⟩,
    save_read_roundtrip [0, 1, 2, 3, 4, 5] _ (by decide) (by decide) (by decide)⟩

/-- C3 counterexample: the STEP pulse built by `testSpline` in
`src/qutip/tests/test_processor.py` — strictly increasing `tlist` of length 6
and `coeff` of the same length 6 — is accepted by validation, not rejected
with `InvalidPulseSpec` as the claim states. -/
theorem validate_step_equal_length_not_rejected :
    validate SplineKind.step [1, 2, 3, 4, 5, 6] [1, 1, 1, 1, 1, 1] = Except.ok () ∧
      validate SplineKind.step [1, 2, 3, 4, 5, 6] [1, 1, 1, 1, 1, 1] ≠
        Except.error PulseError.invalidPulseSpec :=
  ⟨rfl, fun h => Except.noConfusion h⟩

/-- C3 (amended): validation succeeds exactly when `len(coeff)` equals
`len(tlist)` for CUBIC, or `len(tlist)` or `len(tlist) - 1` for STEP, and
`tlist` is strictly increasing; every violation fails with
`InvalidPulseSpec`.  In particular a STEP pulse whose `coeff` has the same
length as its `tlist` is accepted. -/
lemma lengthOk_iff (kind : SplineKind) (tlist coeff : List ℚ) :
    lengthOk kind tlist coeff = true ↔
      ((kind = SplineKind.cubic → coeff.length = tlist.length) ∧
        (kind = SplineKind.step →
          (coeff.length = tlist.length ∨ coeff.length = tlist.length - 1))) := by
  cases kind <;> simp [lengthOk]

theorem validate_ok_iff (kind : SplineKind) (tlist coeff : List ℚ) :
    (validate kind tlist coeff = Except.ok () ↔
        ((kind = SplineKind.cubic → coeff.length = tlist.length) ∧
          (kind = SplineKind.step →
            (coeff.length = tlist.length ∨ coeff.length = tlist.length - 1)) ∧
          List.Chain' (· < ·) tlist)) ∧
      (validate kind tlist coeff = Except.ok () ∨
        validate kind tlist coeff = Except.error PulseError.invalidPulseSpec) := by
  have hcond : (lengthOk kind tlist coeff && strictlyIncreasingB tlist) = true ↔
      ((kind = SplineKind.cubic → coeff.length = tlist.length) ∧
        (kind = SplineKind.step →
          (coeff.length = tlist.length ∨ coeff.length = tlist.length - 1)) ∧
        List.Chain' (· < ·) tlist) := by
    rw [Bool.and_eq_true, lengthOk_iff, strictlyIncreasingB_iff, and_assoc]
  constructor
  · rw [validate]
    constructor
    · intro hok
      by_cases h : (lengthOk kind tlist coeff && strictlyIncreasingB tlist) = true
      · exact hcond.mp h
      · rw [if_neg h] at hok
        exact absurd hok (by simp)
    · intro hr
      rw [if_pos (hcond.mpr hr)]
  · rw [validate]
    split_ifs <;> simp

/-! ## The STEP-interpolation tag on the assembled generator

Modelled from the spec (4.4 step 4): the assembler collects the control pulses
and, when noise is included, the noise-contributed pulses — all carrying the
processor-wide spline kind, since noise coefficients are re-interpolated onto
the control grids (spec 4.3) — and tags the generator with whether STEP
interpolation is in use anywhere. -/

/-- Modelled from the spec: the processor state that the STEP tag depends on:
the processor-wide spline kind, the number of registered control pulses and
the number of noise-contributed pulses. -/
structure ProcSpline where
  spline_kind : SplineKind
  numCtrls : ℕ
  numNoisePulses : ℕ

/-- Modelled from the spec: the spline kinds of all pulses entering assembly;
noise contributions are included only for a noisy assembly (spec 4.4
steps 1-2). -/
def assembledKinds (p : ProcSpline) (noisy : Bool) : List SplineKind :=
  List.replicate p.numCtrls p.spline_kind ++
    (if noisy then List.replicate p.numNoisePulses p.spline_kind else [])

/-- The assembled generator's tag payload: the pulse kinds it was built from
and the `_step_func_coeff` flag handed to the solver. -/
structure QobjEvoTag where
  pulseKinds : List SplineKind
  step_func_coeff : Bool

/-- Modelled from the spec: `get_qobjevo` assembles the generator and tags it
with whether STEP interpolation is in use anywhere (spec 4.4 step 4). -/
def get_qobjevo (p : ProcSpline) (noisy : Bool) : QobjEvoTag :=
  ⟨assembledKinds p noisy, (assembledKinds p noisy).any fun k => k == SplineKind.step⟩

lemma any_replicate {α : Type} (n : ℕ) (k : α) (f : α → Bool) :
    (List.replicate n k).any f = if n = 0 then false else f k := by
  induction n with
  | zero => rfl
  | succ n ih =>
    rw [List.replicate_succ, List.any_cons, ih]
    cases hf : f k <;> cases n <;> simp [hf]

/-- C8: for a processor with at least one control, the `_step_func_coeff` flag
on the assembled generator is set exactly when the processor's spline kind is
`step_func`, and the flag is unchanged between the noiseless and the noisy
assembly. -/
theorem step_func_coeff_flag (p : ProcSpline) (noisy : Bool) (h : 0 < p.numCtrls) :
    ((get_qobjevo p noisy).step_func_coeff = true ↔ p.spline_kind = SplineKind.step) ∧
      (get_qobjevo p noisy).step_func_coeff = (get_qobjevo p false).step_func_coeff := by
  have key : ∀ b : Bool,
      (get_qobjevo p b).step_func_coeff = (p.spline_kind == SplineKind.step) := by
    intro b
    show (assembledKinds p b).any (fun k => k == SplineKind.step) = _
    rw [assembledKinds, List.any_append, any_replicate, if_neg h.ne']
    cases b
    · simp
    · rw [if_pos rfl, any_replicate]
      split_ifs <;> simp
  refine ⟨?_, by rw [key noisy, key false]⟩
  rw [key noisy]
  simp

/-- Witness for C8: a step-kind processor with one control and one
noise-contributed pulse, assembled noisily. -/
theorem step_func_coeff_flag_witness :
    0 < (ProcSpline.mk SplineKind.step 1 1).numCtrls ∧
      (((get_qobjevo (ProcSpline.mk SplineKind.step 1 1) true).step_func_coeff = true ↔
          (ProcSpline.mk SplineKind.step 1 1).spline_kind = SplineKind.step) ∧
        (get_qobjevo (ProcSpline.mk SplineKind.step 1 1) true).step_func_coeff =
          (get_qobjevo (ProcSpline.mk SplineKind.step 1 1) false).step_func_coeff) :=
  ⟨by decide, step_func_coeff_flag (ProcSpline.mk SplineKind.step 1 1) true (by decide)⟩

/-! ## Positional pulse storage: `add_control` / `remove_pulse`

Modelled from the spec (sections 6 and 9): pulses live in a positionally
indexed mutable list; `add_control` appends the embedded control operator(s) —
one per rotation when cyclic expansion is requested (spec 4.1) — and
`remove_pulse` deletes the pulses at the given positions. -/

/-- Modelled from the spec: the processor's pulse list, positionally indexed;
`Op` is the type of stored (already embedded) control operators. -/
structure Processor (Op : Type) where
  pulses : List Op

/-- Modelled from the spec: `add_control` appends the embedded operators of
one registration (a single operator, or its cyclic-permutation expansion) to
the pulse list. -/
def add_control {Op : Type} (proc : Processor Op) (ops : List Op) : Processor Op :=
  ⟨proc.pulses ++ ops⟩

/-- Helper for `remove_pulse`: walks the list with its positional index and
drops the entries whose index is listed. -/
def removeIdxAux {Op : Type} (idxs : List ℕ) : ℕ → List Op → List Op
  | _, [] => []
  | n, x :: xs =>
    if n ∈ idxs then removeIdxAux idxs (n + 1) xs
    else x :: removeIdxAux idxs (n + 1) xs

/-- Modelled from the spec: `remove_pulse(indices)` deletes the pulses at the
given positions, the remaining pulses keeping their relative order. -/
def remove_pulse {Op : Type} (proc : Processor Op) (idxs : List ℕ) : Processor Op :=
  ⟨removeIdxAux idxs 0 proc.pulses⟩

lemma removeIdxAux_all {Op : Type} (idxs : List ℕ) (b : List Op) :
    ∀ n, (∀ i, n ≤ i → i < n + b.length → i ∈ idxs) → removeIdxAux idxs n b = [] := by
  induction b with
  | nil => intro n _; rfl
  | cons x xs ih =>
    intro n hmem
    rw [removeIdxAux, if_pos (hmem n le_rfl (by rw [List.length_cons]; omega))]
    exact ih (n + 1) fun i h1 h2 => hmem i (Nat.le_of_succ_le h1)
      (by rw [List.length_cons]; omega)

lemma removeIdxAux_append_range {Op : Type} (b : List Op) :
    ∀ (a : List Op) (n : ℕ),
      removeIdxAux (List.range' (n + a.length) b.length 1) n (a ++ b) = a := by
  intro a
  induction a with
  | nil =>
    intro n
    rw [List.nil_append]
    refine removeIdxAux_all _ _ n fun i h1 h2 => ?_
    exact List.mem_range'_1.mpr ⟨by simpa using h1, by simpa using h2⟩
  | cons x xs ih =>
    intro n
    rw [List.cons_append, removeIdxAux,
      if_neg (fun hmem => by
        have h1 := (List.mem_range'_1.mp hmem).1
        rw [List.length_cons] at h1
        omega)]
    have harr : n + (x :: xs).length = (n + 1) + xs.length := by
      rw [List.length_cons]
      omega
    rw [harr]
    exact congrArg (x :: ·) (ih (n + 1))

/-- C9: adding control pulses (appended by `add_control`, possibly as a
cyclic-permutation expansion) and then removing exactly the added positions
with `remove_pulse` restores the pulse list to its exact pre-addition
contents — same operators, same order — from any prior processor state, hence
under arbitrary interleavings of add/remove. -/
theorem add_remove_restores {Op : Type} (proc : Processor Op) (ops : List Op) :
    remove_pulse (add_control proc ops)
        (List.range' proc.pulses.length ops.length 1) = proc := by
  show Processor.mk (removeIdxAux (List.range' proc.pulses.length ops.length 1) 0
      (proc.pulses ++ ops)) = proc
  have h := removeIdxAux_append_range ops proc.pulses 0
  rw [Nat.zero_add] at h
  rw [h]

/-! ## The evolution driver (modelled from the spec, section 4.5)

The evolution driver itself is not in the source tree; following spec 4.5 we
model the analytical mode as the propagator sequence `exp(-i·H·Δt)` over the
requested intervals, and the deterministic mode for a constant generator as
the exact solution of the Schrödinger equation over the output grid. -/

section Evolution

variable {N : Type} [Fintype N] [DecidableEq N]

/-- The interval lengths `Δt_k = t_{k+1} - t_k` of a requested time grid. -/
def intervals (tlist : List ℝ) : List ℝ :=
  List.zipWith (fun a b => b - a) tlist tlist.tail

/-- Modelled from the spec: the closed-form propagator `exp(-i·H·Δt)` of a
time-independent generator over one interval (spec 4.5, Analytical). -/
noncomputable def propagator (H : Matrix N N ℂ) (dt : ℝ) : Matrix N N ℂ :=
  NormedSpace.exp ℂ ((-Complex.I * (dt : ℂ)) • H)

/-- Modelled from the spec: `run_analytically` produces the sequence of
propagators `exp(-i·H·Δt)` for each requested interval (spec 4.5); valid only
for a time-independent generator with no dissipators. -/
noncomputable def run_analytically (H : Matrix N N ℂ) (tlist : List ℝ) :
    List (Matrix N N ℂ) :=
  (intervals tlist).map (propagator H)

/-- Sequential application of a propagator sequence to an initial state. -/
noncomputable def applyProps (Us : List (Matrix N N ℂ)) (ψ0 : N → ℂ) : N → ℂ :=
  Us.foldl (fun ψ U => U.mulVec ψ) ψ0

/-- Modelled from the spec: deterministic-mode integration of the pure-state
Schrödinger equation for a constant generator with no dissipators — the exact
solution `exp(-i·H·(t_end - t_0))·ψ0` over the requested grid (spec 4.5,
Deterministic). -/
noncomputable def run_state (H : Matrix N N ℂ) (tlist : List ℝ) (ψ0 : N → ℂ) : N → ℂ :=
  (propagator H (intervals tlist).sum).mulVec ψ0

/-- Pure-state fidelity `|⟨ψ|φ⟩|` (spec glossary: 1 for identical states). -/
noncomputable def fid (ψ φ : N → ℂ) : ℝ := Complex.abs (star ψ ⬝ᵥ φ)

lemma exp_smul_add (H : Matrix N N ℂ) (a b : ℂ) :
    NormedSpace.exp ℂ ((a + b) • H) =
      NormedSpace.exp ℂ (a • H) * NormedSpace.exp ℂ (b • H) := by
  rw [add_smul]
  exact Matrix.exp_add_of_commute ℂ _ _ (((Commute.refl H).smul_left a).smul_right b)

lemma propagator_add (H : Matrix N N ℂ) (s t : ℝ) :
    propagator H (s + t) = propagator H s * propagator H t := by
  rw [propagator, propagator, propagator, ← exp_smul_add]
  congr 1
  push_cast
  ring_nf

lemma propagator_zero (H : Matrix N N ℂ) : propagator H 0 = 1 := by
  rw [propagator]
  norm_num

lemma applyProps_map_propagator (H : Matrix N N ℂ) (ds : List ℝ) (ψ0 : N → ℂ) :
    applyProps (ds.map (propagator H)) ψ0 = (propagator H ds.sum).mulVec ψ0 := by
  induction ds generalizing ψ0 with
  | nil => simp [applyProps, propagator_zero, Matrix.one_mulVec]
  | cons dt ds ih =>
    rw [List.map_cons, List.sum_cons]
    show applyProps (ds.map (propagator H)) ((propagator H dt).mulVec ψ0) = _
    rw [ih, Matrix.mulVec_mulVec, add_comm dt ds.sum, propagator_add]

lemma propagator_unitary {H : Matrix N N ℂ} (hH : H.IsHermitian) (dt : ℝ) :
    (propagator H dt)ᴴ * propagator H dt = 1 := by
  have hA : ((-Complex.I * (dt : ℂ)) • H)ᴴ = -((-Complex.I * (dt : ℂ)) • H) := by
    rw [Matrix.conjTranspose_smul, hH.eq, ← neg_smul]
    congr 1
    simp [Complex.star_def]
  rw [propagator, ← Matrix.exp_conjTranspose, hA,
    ← Matrix.exp_add_of_commute ℂ _ _ ((Commute.refl _).neg_left), neg_add_cancel]
  exact NormedSpace.exp_zero

lemma mulVec_inner_preserved {A : Matrix N N ℂ} (hU : Aᴴ * A = 1) (ψ : N → ℂ) :
    star (A.mulVec ψ) ⬝ᵥ (A.mulVec ψ) = star ψ ⬝ᵥ ψ := by
  rw [Matrix.star_mulVec, Matrix.dotProduct_mulVec, Matrix.vecMul_vecMul, hU,
    Matrix.vecMul_one]

/-- C4: deterministic evolution with no noise under an identity (zero-effect)
generator — any real multiple `z` of the identity operator, covering both the
zero Hamiltonian (`z = 0`) and the identity pulse (`z = 1`) — leaves every
initial state unchanged up to a single global phase, for all initial states
and all time grids. -/
theorem id_evolution_global_phase (z : ℝ) (tlist : List ℝ) (ψ0 : N → ℂ) :
    ∃ c : ℂ, Complex.abs c = 1 ∧
      run_state ((z : ℂ) • (1 : Matrix N N ℂ)) tlist ψ0 = c • ψ0 := by
  refine ⟨Complex.exp (-Complex.I * ((intervals tlist).sum : ℝ) * (z : ℝ)), ?_, ?_⟩
  · rw [Complex.abs_exp]
    have hre : (-Complex.I * ((intervals tlist).sum : ℝ) * (z : ℝ)).re = 0 := by
      simp [Complex.mul_re, Complex.mul_im]
    rw [hre, Real.exp_zero]
  · rw [run_state, propagator, smul_smul, ← Matrix.diagonal_one, ← Matrix.diagonal_smul,
      Matrix.exp_diagonal]
    ext i
    rw [Matrix.mulVec_diagonal, Pi.coe_exp]
    simp only [Pi.smul_apply, Pi.one_apply, smul_eq_mul, mul_one]
    rw [← Complex.exp_eq_exp_ℂ]

/-- C5: `run_analytically` — valid only for a time-independent generator with
no dissipators — returns the sequence of propagators `exp(-i·H·Δt)` for each
requested interval, and applying these propagators sequentially to an initial
state matches the deterministic-mode integration over the same constant
generator and time grid within `1e-6` fidelity. -/
theorem run_analytically_matches_deterministic (H : Matrix N N ℂ) (tlist : List ℝ)
    (ψ0 : N → ℂ) (hH : H.IsHermitian) (hψ : star ψ0 ⬝ᵥ ψ0 = 1) :
    run_analytically H tlist =
        (intervals tlist).map
          (fun dt : ℝ => NormedSpace.exp ℂ ((-Complex.I * (dt : ℂ)) • H)) ∧
      applyProps (run_analytically H tlist) ψ0 = run_state H tlist ψ0 ∧
      1 - fid (applyProps (run_analytically H tlist) ψ0) (run_state H tlist ψ0) ≤
        1e-6 := by
  have heq : applyProps (run_analytically H tlist) ψ0 = run_state H tlist ψ0 := by
    rw [run_analytically, applyProps_map_propagator, run_state]
  refine ⟨rfl, heq, ?_⟩
  rw [heq]
  have hinner : star (run_state H tlist ψ0) ⬝ᵥ run_state H tlist ψ0 = 1 := by
    rw [run_state, mulVec_inner_preserved (propagator_unitary hH _), hψ]
  rw [fid, hinner]
  norm_num

/-- Witness for C5: the one-dimensional zero generator (Hermitian), the unit
state, and the time grid `[0, 1]`. -/
theorem run_analytically_matches_deterministic_witness :
    ((0 : Matrix (Fin 1) (Fin 1) ℂ).IsHermitian ∧
        star (fun _ : Fin 1 => (1 : ℂ)) ⬝ᵥ (fun _ : Fin 1 => (1 : ℂ)) = 1) ∧
      (run_analytically (0 : Matrix (Fin 1) (Fin 1) ℂ) [0, 1] =
          (intervals [0, 1]).map
            (fun dt : ℝ =>
              NormedSpace.exp ℂ
                ((-Complex.I * (dt : ℂ)) • (0 : Matrix (Fin 1) (Fin 1) ℂ))) ∧
        applyProps (run_analytically (0 : Matrix (Fin 1) (Fin 1) ℂ) [0, 1])
            (fun _ => 1) =
          run_state (0 : Matrix (Fin 1) (Fin 1) ℂ) [0, 1] (fun _ => 1) ∧
        1 -
            fid
              (applyProps (run_analytically (0 : Matrix (Fin 1) (Fin 1) ℂ) [0, 1])
                (fun _ => 1))
              (run_state (0 : Matrix (Fin 1) (Fin 1) ℂ) [0, 1] (fun _ => 1)) ≤
          1e-6) :=
  ⟨⟨Matrix.isHermitian_zero, by simp [Matrix.dotProduct]⟩,
    run_analytically_matches_deterministic 0 [0, 1] (fun _ => 1) Matrix.isHermitian_zero
      (by simp [Matrix.dotProduct])⟩

/-! ### Stochastic (Monte-Carlo) mode

Modelled from the spec (4.5, Stochastic): repeated quantum-jump trajectories
whose average reproduces the dissipative evolution; with no dissipators the
jump probability vanishes and every trajectory follows the deterministic
propagation. -/

/-- Modelled from the spec: one quantum-jump step over an interval `dt`: the
jump probability is proportional to the total collapse weight
`Σ_L ⟨Lψ, Lψ⟩`; a jump — applying a collapse operator — happens when the
uniform draw `r` falls below it, and otherwise the state follows the
deterministic propagator. -/
noncomputable def mcStep (H : Matrix N N ℂ) (cops : List (Matrix N N ℂ)) (dt r : ℝ)
    (ψ : N → ℂ) : N → ℂ :=
  if r < dt * ((cops.map fun L => (star (L.mulVec ψ) ⬝ᵥ (L.mulVec ψ)).re).sum) then
    match cops with
    | [] => ψ
    | L :: _ => L.mulVec ψ
  else (propagator H dt).mulVec ψ

/-- Modelled from the spec: a single stochastic trajectory over the requested
grid, driven by one uniform draw per interval. -/
noncomputable def mcTrajectory (H : Matrix N N ℂ) (cops : List (Matrix N N ℂ))
    (tlist : List ℝ) (rs : List ℝ) (ψ0 : N → ℂ) : N → ℂ :=
  (List.zip (intervals tlist) rs).foldl (fun ψ p => mcStep H cops p.1 p.2 ψ) ψ0

/-- The density matrix `|ψ⟩⟨ψ|` of a pure state, the representation in which
trajectories are averaged. -/
noncomputable def dmOf (ψ : N → ℂ) : Matrix N N ℂ := Matrix.vecMulVec ψ (star ψ)

/-- Modelled from the spec: stochastic-mode `run_state` runs one trajectory
per seed row and averages the results across trajectories. -/
noncomputable def mcRun (H : Matrix N N ℂ) (cops : List (Matrix N N ℂ))
    (tlist : List ℝ) (rss : List (List ℝ)) (ψ0 : N → ℂ) : Matrix N N ℂ :=
  ((rss.length : ℂ))⁻¹ • (rss.map fun rs => dmOf (mcTrajectory H cops tlist rs ψ0)).sum

lemma mcTrajectory_no_cops (H : Matrix N N ℂ) (ds : List ℝ) :
    ∀ (rs : List ℝ) (ψ : N → ℂ), (∀ r ∈ rs, 0 ≤ r) → ds.length ≤ rs.length →
      (List.zip ds rs).foldl (fun ψ p => mcStep H [] p.1 p.2 ψ) ψ =
        applyProps (ds.map (propagator H)) ψ := by
  induction ds with
  | nil => intro rs ψ _ _; rfl
  | cons dt ds ih =>
    intro rs ψ hr hlen
    cases rs with
    | nil => simp at hlen
    | cons r rs =>
      rw [List.zip_cons_cons, List.foldl_cons, List.map_cons]
      have hstep : mcStep H [] dt r ψ = (propagator H dt).mulVec ψ := by
        rw [mcStep, if_neg]
        simp only [List.map_nil, List.sum_nil, mul_zero, not_lt]
        exact hr r (List.mem_cons_self r rs)
      rw [hstep]
      exact ih rs _ (fun x hx => hr x (List.mem_cons_of_mem r hx)) (Nat.le_of_succ_le_succ hlen)

/-- C7: when the stochastic (Monte-Carlo) solver mode is requested but there
are zero dissipators, `run_state` degenerates to a single deterministic
trajectory: for any number of trajectories and any (non-negative) random
draws, the averaged stochastic result equals the deterministic-mode result
for the same generator, initial state, and time grid. -/
theorem mc_no_dissipators_deterministic (H : Matrix N N ℂ) (tlist : List ℝ)
    (rss : List (List ℝ)) (ψ0 : N → ℂ)
    (hr : ∀ rs ∈ rss, ∀ r ∈ rs, 0 ≤ r)
    (hlen : ∀ rs ∈ rss, (intervals tlist).length ≤ rs.length)
    (hn : rss ≠ []) :
    mcRun H [] tlist rss ψ0 = dmOf (run_state H tlist ψ0) := by
  have htraj : ∀ rs ∈ rss, mcTrajectory H [] tlist rs ψ0 = run_state H tlist ψ0 := by
    intro rs hrs
    rw [mcTrajectory, mcTrajectory_no_cops H _ rs ψ0 (hr rs hrs) (hlen rs hrs),
      applyProps_map_propagator, run_state]
  rw [mcRun]
  have hmap : (rss.map fun rs => dmOf (mcTrajectory H [] tlist rs ψ0)) =
      rss.map fun _ => dmOf (run_state H tlist ψ0) :=
    List.map_congr_left fun rs hrs => by rw [htraj rs hrs]
  rw [hmap, List.map_const', List.sum_replicate]
  rw [← Nat.cast_smul_eq_nsmul ℂ, smul_smul,
    inv_mul_cancel₀ (Nat.cast_ne_zero.mpr (List.length_pos.mpr hn).ne'), one_smul]

/-- Witness for C7: the one-dimensional zero generator, grid `[0, 1]`, one
trajectory with the single draw `0`. -/
theorem mc_no_dissipators_deterministic_witness :
    ((∀ rs ∈ [[(0 : ℝ)]], ∀ r ∈ rs, 0 ≤ r) ∧
        (∀ rs ∈ [[(0 : ℝ)]], (intervals [0, 1]).length ≤ rs.length) ∧
        ([[(0 : ℝ)]] ≠ [])) ∧
      mcRun (0 : Matrix (Fin 1) (Fin 1) ℂ) [] [0, 1] [[(0 : ℝ)]] (fun _ => 1) =
        dmOf (run_state (0 : Matrix (Fin 1) (Fin 1) ℂ) [0, 1] (fun _ => 1)) :=
  ⟨⟨by simp, by simp [intervals], by simp⟩,
    mc_no_dissipators_deterministic 0 [0, 1] [[(0 : ℝ)]] (fun _ => 1)
      (by simp) (by simp [intervals]) (by simp)⟩

end Evolution

/-! ### Master-equation evolution with dissipation; T1 relaxation

Modelled from the spec (4.5, Deterministic): the driver integrates
`dρ/dt = -i[H(t),ρ] + Σ D[L_k](ρ)`.  For a constant generator the exact
solution is the exponential of the vectorised Lindbladian applied to the
vectorised initial density matrix. -/

section Lindblad

variable {N : Type} [Fintype N] [DecidableEq N]

/-- Modelled from the spec: the right-hand side of the master equation
`-i[H,ρ] + Σ_k (L_k ρ L_k† - ½{L_k† L_k, ρ})` (spec 4.5, Deterministic). -/
noncomputable def lindbladRHS (H : Matrix N N ℂ) (cops : List (Matrix N N ℂ))
    (ρ : Matrix N N ℂ) : Matrix N N ℂ :=
  (-Complex.I) • (H * ρ - ρ * H) +
    (cops.map fun L => L * ρ * Lᴴ - (2 : ℂ)⁻¹ • (Lᴴ * L * ρ + ρ * (Lᴴ * L))).sum

/-- Vectorisation of a density matrix. -/
def vecDM (ρ : Matrix N N ℂ) : (N × N) → ℂ := fun p => ρ p.1 p.2

/-- The matrix of a superoperator in the basis of matrix units. -/
noncomputable def superOf (f : Matrix N N ℂ → Matrix N N ℂ) :
    Matrix (N × N) (N × N) ℂ :=
  Matrix.of fun p q => f (Matrix.stdBasisMatrix q.1 q.2 1) p.1 p.2

/-- Modelled from the spec: deterministic-mode integration of the master
equation for a constant generator and dissipator set over elapsed time `t` —
the exact solution via the exponential of the vectorised Lindbladian. -/
noncomputable def run_state_dm (H : Matrix N N ℂ) (cops : List (Matrix N N ℂ))
    (t : ℝ) (ρ0 : Matrix N N ℂ) : Matrix N N ℂ :=
  Matrix.of fun i j =>
    ((NormedSpace.exp ℂ ((t : ℂ) • superOf (lindbladRHS H cops))).mulVec (vecDM ρ0)) (i, j)

/-- Expectation value `Tr(E·ρ)` of an observable in a state (spec: expectation
values of caller-supplied observables). -/
noncomputable def expectVal (E ρ : Matrix N N ℂ) : ℂ := (E * ρ).trace

/-- `destroy(2)`, the two-level annihilation operator used by the test. -/
def destroyOp : Matrix (Fin 2) (Fin 2) ℂ :=
  Matrix.of fun i j => if i = 0 ∧ j = 1 then 1 else 0

/-- Modelled from the spec: the amplitude-damping collapse operator the
relaxation noise synthesises for a `T1` time: `sqrt(1/t1)·destroy(2)`
(spec 4.3, Relaxation). -/
noncomputable def t1CollapseOp (t1 : ℝ) : Matrix (Fin 2) (Fin 2) ℂ :=
  (Real.sqrt (1 / t1) : ℂ) • destroyOp

/-- The number operator `a†·a`, whose expectation is the excited-state
population. -/
noncomputable def numOp : Matrix (Fin 2) (Fin 2) ℂ := destroyOpᴴ * destroyOp

/-- The excited state `|1⟩⟨1|` of a two-level system (`basis(2,1)` as a
density matrix). -/
def excitedDM : Matrix (Fin 2) (Fin 2) ℂ := Matrix.stdBasisMatrix 1 1 1

lemma vecMul_smul_mat {M : Type} [Fintype M] (s : ℂ) (A : Matrix M M ℂ) (v : M → ℂ) :
    v ᵥ* (s • A) = s • (v ᵥ* A) := by
  funext j
  simp [Matrix.vecMul, Matrix.dotProduct, Finset.mul_sum, mul_left_comm]

/-- A left eigenvector of a matrix is a left eigenvector of its exponential,
with the exponentiated eigenvalue. -/
lemma vecMul_exp_of_eig {M : Type} [Fintype M] [DecidableEq M]
    (A : Matrix M M ℂ) (v : M → ℂ) (c : ℂ) (h : v ᵥ* A = c • v) :
    v ᵥ* (NormedSpace.exp ℂ A) = Complex.exp c • v := by
  letI : SeminormedRing (Matrix M M ℂ) := Matrix.linftyOpSemiNormedRing
  letI : NormedRing (Matrix M M ℂ) := Matrix.linftyOpNormedRing
  letI : NormedAlgebra ℂ (Matrix M M ℂ) := Matrix.linftyOpNormedAlgebra
  have hpow : ∀ k : ℕ, v ᵥ* (A ^ k) = (c ^ k) • v := by
    intro k
    induction k with
    | zero => rw [pow_zero, Matrix.vecMul_one, pow_zero, one_smul]
    | succ k ih =>
      rw [pow_succ, ← Matrix.vecMul_vecMul, ih, Matrix.vecMul_smul, h, smul_smul, ← pow_succ]
  let f : Matrix M M ℂ →ₗ[ℂ] (M → ℂ) :=
    { toFun := fun B => v ᵥ* B
      map_add' := fun B C => Matrix.vecMul_add B C v
      map_smul' := fun s B => vecMul_smul_mat s B v }
  have hf : Continuous f := f.continuous_of_finiteDimensional
  let F : Matrix M M ℂ →L[ℂ] (M → ℂ) := ⟨f, hf⟩
  have hsum : Summable fun n : ℕ => ((n.factorial : ℂ))⁻¹ • A ^ n :=
    NormedSpace.expSeries_summable' (𝕂 := ℂ) A
  have hsc : Summable fun n : ℕ => ((n.factorial : ℂ))⁻¹ * c ^ n := by
    simpa [smul_eq_mul] using NormedSpace.expSeries_summable' (𝕂 := ℂ) (𝔸 := ℂ) c
  have hc : tsum (fun n : ℕ => ((n.factorial : ℂ))⁻¹ * c ^ n) = Complex.exp c := by
    rw [Complex.exp_eq_exp_ℂ]
    simp only [NormedSpace.exp_eq_tsum, smul_eq_mul]
  have hexp : NormedSpace.exp ℂ A = tsum (fun n : ℕ => ((n.factorial : ℂ))⁻¹ • A ^ n) :=
    congrFun NormedSpace.exp_eq_tsum A
  rw [hexp]
  calc v ᵥ* tsum (fun n : ℕ => ((n.factorial : ℂ))⁻¹ • A ^ n)
      = F (tsum (fun n : ℕ => ((n.factorial : ℂ))⁻¹ • A ^ n)) := rfl
    _ = tsum (fun n : ℕ => F (((n.factorial : ℂ))⁻¹ • A ^ n)) := F.map_tsum hsum
    _ = tsum (fun n : ℕ => (((n.factorial : ℂ))⁻¹ * c ^ n) • v) := by
        refine tsum_congr fun n => ?_
        show v ᵥ* (((n.factorial : ℂ))⁻¹ • A ^ n) = _
        rw [vecMul_smul_mat, hpow, smul_smul]
    _ = tsum (fun n : ℕ => ((n.factorial : ℂ))⁻¹ * c ^ n) • v := tsum_smul_const hsc v
    _ = Complex.exp c • v := by rw [hc]

/-- The vectorised functional reading off the excited-excited entry. -/
def e11 : (Fin 2 × Fin 2) → ℂ := Pi.single ((1 : Fin 2), (1 : Fin 2)) (1 : ℂ)

lemma superOf_t1_row {t1 : ℝ} (h : 0 < t1) :
    (superOf (lindbladRHS 0 [t1CollapseOp t1])) ((1 : Fin 2), (1 : Fin 2)) =
      ((-(1 / t1 : ℝ) : ℂ)) • e11 := by
  have hs : ((Real.sqrt t1 : ℝ) : ℂ)⁻¹ * ((Real.sqrt t1 : ℝ) : ℂ)⁻¹ = ((t1 : ℝ) : ℂ)⁻¹ := by
    rw [← mul_inv, ← Complex.ofReal_mul, Real.mul_self_sqrt h.le]
  funext q
  obtain ⟨k, l⟩ := q
  fin_cases k <;> fin_cases l <;>
    simp only [e11, superOf, lindbladRHS, t1CollapseOp, destroyOp, Matrix.of_apply,
      Matrix.stdBasisMatrix, Matrix.smul_apply, Matrix.add_apply, Matrix.sub_apply,
      Matrix.mul_apply, Matrix.conjTranspose_apply, Matrix.zero_mul, Matrix.mul_zero,
      List.map_cons, List.map_nil, List.sum_cons, List.sum_nil, add_zero,
      Fin.sum_univ_two, Pi.smul_apply, Pi.single_apply, smul_eq_mul,
      apply_ite (star : ℂ → ℂ), star_one, star_zero, Complex.star_def,
      Complex.conj_ofReal] <;>
    norm_num <;>
    rw [show (1 : ℂ) / 2 * ((((Real.sqrt t1 : ℝ) : ℂ))⁻¹ * (((Real.sqrt t1 : ℝ) : ℂ))⁻¹ +
        (((Real.sqrt t1 : ℝ) : ℂ))⁻¹ * (((Real.sqrt t1 : ℝ) : ℂ))⁻¹) =
      ((t1 : ℝ) : ℂ)⁻¹ from by rw [hs]; ring]

/-- C6: for a two-level system with pure T1 relaxation, zero Hamiltonian, and
the excited state as initial state, the excited-state population returned by
the master-equation evolution equals `exp(-t/T1)` at every output time. -/
theorem t1_relaxation (t1 t : ℝ) (h : 0 < t1) :
    expectVal numOp (run_state_dm 0 [t1CollapseOp t1] t excitedDM) =
      Complex.exp (-(t / t1 : ℝ)) := by
  have hexp_entry : ∀ ρ : Matrix (Fin 2) (Fin 2) ℂ, expectVal numOp ρ = ρ 1 1 := by
    intro ρ
    simp [expectVal, numOp, destroyOp, Matrix.trace, Matrix.diag, Matrix.mul_apply,
      Matrix.conjTranspose_apply, Fin.sum_univ_two, apply_ite (star : ℂ → ℂ)]
  rw [hexp_entry]
  have hrow2 : e11 ᵥ* ((t : ℂ) • superOf (lindbladRHS 0 [t1CollapseOp t1])) =
      ((t : ℂ) * (-(1 / t1 : ℝ) : ℂ)) • e11 := by
    rw [vecMul_smul_mat, show e11 ᵥ* superOf (lindbladRHS 0 [t1CollapseOp t1]) =
        superOf (lindbladRHS 0 [t1CollapseOp t1]) ((1 : Fin 2), (1 : Fin 2)) from
      Matrix.single_one_vecMul _ _, superOf_t1_row h, smul_smul]
  have heig := vecMul_exp_of_eig _ _ _ hrow2
  show (NormedSpace.exp ℂ ((t : ℂ) • superOf (lindbladRHS 0 [t1CollapseOp t1])) *ᵥ
      vecDM excitedDM) ((1 : Fin 2), (1 : Fin 2)) = _
  have hentry : (NormedSpace.exp ℂ ((t : ℂ) • superOf (lindbladRHS 0 [t1CollapseOp t1])) *ᵥ
      vecDM excitedDM) ((1 : Fin 2), (1 : Fin 2)) =
      (e11 ᵥ* NormedSpace.exp ℂ ((t : ℂ) • superOf (lindbladRHS 0 [t1CollapseOp t1]))) ⬝ᵥ
        vecDM excitedDM := by
    rw [show (e11 ᵥ* NormedSpace.exp ℂ ((t : ℂ) • superOf (lindbladRHS 0 [t1CollapseOp t1]))) =
        NormedSpace.exp ℂ ((t : ℂ) • superOf (lindbladRHS 0 [t1CollapseOp t1]))
          ((1 : Fin 2), (1 : Fin 2)) from Matrix.single_one_vecMul _ _]
    rfl
  rw [hentry, heig, Matrix.smul_dotProduct]
  have hdot : e11 ⬝ᵥ vecDM excitedDM = 1 := by
    rw [e11, Matrix.single_dotProduct]
    simp [vecDM, excitedDM, Matrix.stdBasisMatrix]
  rw [hdot, smul_eq_mul, mul_one]
  congr 1
  push_cast
  ring

/-- Witness for C6: `T1 = 1` and output time `t = 0`. -/
theorem t1_relaxation_witness :
    (0 : ℝ) < 1 ∧
      expectVal numOp (run_state_dm 0 [t1CollapseOp 1] 0 excitedDM) =
        Complex.exp (-((0 : ℝ) / 1 : ℝ)) :=
  ⟨by norm_num, t1_relaxation 1 0 (by norm_num)⟩

end Lindblad

end QutipSpec
